import Mathlib

/-!
Verification of the genetic-algorithm engine of `src/main.py` (a GA that
evolves neural-network weights for a snake-playing agent).

Shallow embedding conventions:
* gene vectors (numpy float arrays) are `List ℚ`;
* the fitness oracle (`Game(...).play()`) is a parameter
  `Oracle : ℕ → List ℚ → ℕ × ℕ × ℕ` giving, for the n-th oracle call of a
  phase and the genes played, the returned `(score, steps, seed)`;
* every random draw of the engine (crossover point, roulette picks,
  mutation mask and normal noise, shuffles) is threaded in explicitly
  through a `Rand` record, so each theorem quantifies over all draws;
* in-place numpy updates are modelled by returning the updated value; in
  particular `GA.crossover`'s tuple slice assignment
  `c1[:p+1], c2[:p+1] = c2[:p+1], c1[:p+1]` is modelled exactly as numpy
  executes it: the right-hand sides are *views*, so after `c1`'s prefix is
  overwritten the second assignment writes `c2`'s own old values back;
* a Python runtime error (unpacking a short list, indexing an empty list,
  dividing by `len([])`) makes the modelled step return `none`.
-/

namespace SnakeGA

/-- `Individual` of `src/main.py`: genes plus the evaluated episode outcome.
`__init__` zeroes `score`, `steps`, `fitness` and leaves `seed` unset
(modelled as `0`, it is only ever overwritten before use). -/
structure Individual where
  genes : List ℚ
  score : ℕ
  steps : ℕ
  fitness : ℚ
  seed : ℕ
deriving DecidableEq

/-- `Individual.__init__(genes)`. -/
def Individual.init (genes : List ℚ) : Individual :=
  { genes := genes, score := 0, steps := 0, fitness := 0, seed := 0 }

/-- The fitness oracle `Game([genes]).play()`: call index and genes to
`(score, steps, seed)`. The index lets distinct calls on equal genes
return different episodes, as the real game does. -/
def Oracle : Type := ℕ → List ℚ → ℕ × ℕ × ℕ

/-- The fitness expression of `Individual.get_fitness`:
`(score + 1 / steps) * 100000`. -/
def fitnessFormula (score steps : ℕ) : ℚ :=
  ((score : ℚ) + 1 / (steps : ℚ)) * 100000

/-- `Individual.get_fitness`, with the oracle's reply passed in:
sets `score`, `steps`, `seed` from the reply and recomputes `fitness`. -/
def Individual.get_fitness (ind : Individual) (res : ℕ × ℕ × ℕ) : Individual :=
  { ind with
    score := res.1
    steps := res.2.1
    seed := res.2.2
    fitness := fitnessFormula res.1 res.2.1 }

/-- `GA.crossover(c1_genes, c2_genes)` at a drawn `point`, modelling the numpy
semantics of `c1[:point+1], c2[:point+1] = c2[:point+1], c1[:point+1]`:
the RHS pair holds two views; assignment one copies `c2`'s prefix into `c1`;
assignment two then reads the view of `c1`'s prefix — which now holds `c2`'s
old prefix — back into `c2`. -/
def crossover (point : ℕ) (c1_genes c2_genes : List ℚ) : List ℚ × List ℚ :=
  let c1' := c2_genes.take (point + 1) ++ c1_genes.drop (point + 1)
  let c2' := c1'.take (point + 1) ++ c2_genes.drop (point + 1)
  (c1', c2')

/-- `GA.mutate(c_genes)` with the random draws passed in: `mask` is the
boolean array `np.random.random(shape) < mutate_rate`, `noise` the standard
normal array; masked components gain `0.2 * noise`. -/
def mutate (mask : List Bool) (noise : List ℚ) (c_genes : List ℚ) : List ℚ :=
  List.zipWith (fun g bn => if bn.1 then g + bn.2 * (2 / 10) else g)
    c_genes (mask.zip noise)

/-- The comparison `sorted(..., key=lambda ind: ind.fitness, reverse=True)`
sorts by: `a` before `b` iff `b.fitness ≤ a.fitness`. -/
def fitGE (a b : Individual) : Prop := b.fitness ≤ a.fitness

instance : DecidableRel fitGE :=
  fun a b => inferInstanceAs (Decidable (b.fitness ≤ a.fitness))

instance : IsTotal Individual fitGE :=
  ⟨fun a b => le_total b.fitness a.fitness⟩

instance : IsTrans Individual fitGE :=
  ⟨fun _ _ _ hab hbc => le_trans hbc hab⟩

/-- `GA.elitism_selection(size)`: stably sort the population by descending
fitness (Python's `sorted` is stable; so is insertion sort) and keep the
first `size`. -/
def elitism_selection (population : List Individual) (size : ℕ) : List Individual :=
  (List.insertionSort fitGE population).take size

/-- `wheel = sum(individual.fitness for individual in self.population)`. -/
def wheel (population : List Individual) : ℚ :=
  (population.map fun ind => ind.fitness).sum

/-- Cumulative fitness of the first `n` individuals, the running `current`
of `GA.roulette_wheel_selection`. -/
def cumFitness (population : List Individual) (n : ℕ) : ℚ :=
  ((population.take n).map fun ind => ind.fitness).sum

/-- One inner loop of `GA.roulette_wheel_selection`: starting from
accumulator `current`, return the first individual whose cumulative fitness
strictly exceeds `pick` (the loop `break`s there), `none` if the loop runs
off the end of the population. -/
def rouletteDraw (population : List Individual) (pick current : ℚ) :
    Option Individual :=
  match population with
  | [] => none
  | ind :: rest =>
    if current + ind.fitness > pick then some ind
    else rouletteDraw rest pick (current + ind.fitness)

/-- `GA.roulette_wheel_selection(size)` with the uniform draws
`np.random.uniform(0, wheel)` passed in as `picks` (one per outer
iteration); an iteration whose inner loop never breaks appends nothing. -/
def roulette_wheel_selection (population : List Individual) (picks : List ℚ) :
    List Individual :=
  picks.filterMap fun pick => rouletteDraw population pick 0

/-- Everything `GA.evolve` draws from the process-wide random source:
the two `random.shuffle` calls (as list-to-list functions, hypothesised to
permute where a theorem needs it), roulette picks (two per reproduction
iteration: `picks (2*i)`, `picks (2*i+1)`), the crossover `point` of
iteration `i`, and the mutation mask/noise of each child (children `2*i`
and `2*i+1`). -/
structure Rand where
  shufflePop : List Individual → List Individual
  shuffleChildren : List Individual → List Individual
  picks : ℕ → ℚ
  points : ℕ → ℕ
  masks : ℕ → List Bool
  noises : ℕ → List ℚ

/-- `GA` engine state. -/
structure GA where
  p_size : ℕ
  c_size : ℕ
  genes_len : ℕ
  mutate_rate : ℚ
  population : List Individual
  best_individual : Option Individual
  avg_score : ℚ
deriving DecidableEq

/-- The evaluation loop of `GA.evolve` (and of `GA.save_all`): call
`get_fitness` on every individual in population order; the n-th oracle
call carries index n. -/
def evalPop (oracle : Oracle) (population : List Individual) : List Individual :=
  population.enum.map fun p => (p.2).get_fitness (oracle p.1 p.2.genes)

/-- `self.avg_score = sum_score / len(self.population)`. -/
def avgScore (population : List Individual) : ℚ :=
  ((population.map fun ind => (ind.score : ℚ)).sum) / (population.length : ℚ)

/-- One iteration of the children loop of `GA.evolve`:
`p1, p2 = self.roulette_wheel_selection(2)` (a `ValueError` — `none` — if
the draw does not return exactly two), copy the parents' genes, crossover
at the drawn point, mutate each child, wrap as fresh `Individual`s. -/
def reproduceStep (rand : Rand) (population : List Individual) (i : ℕ) :
    Option (Individual × Individual) :=
  match roulette_wheel_selection population
      [rand.picks (2 * i), rand.picks (2 * i + 1)] with
  | [p1, p2] =>
    let pair := crossover (rand.points i) p1.genes p2.genes
    let c1_genes := mutate (rand.masks (2 * i)) (rand.noises (2 * i)) pair.1
    let c2_genes := mutate (rand.masks (2 * i + 1)) (rand.noises (2 * i + 1)) pair.2
    some (Individual.init c1_genes, Individual.init c2_genes)
  | _ => none

/-- The `while len(children) < self.c_size` loop, which runs
`(c_size + 1) / 2` iterations (each appends exactly two children), as a
recursion over the remaining iteration count `k`; `i` is the iteration
index feeding the random streams. -/
def reproduceLoop (rand : Rand) (population : List Individual) :
    ℕ → ℕ → Option (List Individual)
  | _, 0 => some []
  | i, Nat.succ k =>
    match reproduceStep rand population i with
    | none => none
    | some (c1, c2) =>
      match reproduceLoop rand population (i + 1) k with
      | none => none
      | some rest => some (c1 :: c2 :: rest)

/-- `GA.evolve`: evaluate everyone (crash — `none` — on an empty population,
where `len` is 0 in the average), select the `p_size` elite, record
`best_individual = population[0]` (an `IndexError` — `none` — if the elite
is empty), shuffle, breed `c_size` children (`c_size` even) and append the
shuffled children. -/
def evolve (oracle : Oracle) (rand : Rand) (ga : GA) : Option GA :=
  if evalPop oracle ga.population = [] then none
  else
    match elitism_selection (evalPop oracle ga.population) ga.p_size,
        reproduceLoop rand
          (rand.shufflePop (elitism_selection (evalPop oracle ga.population) ga.p_size))
          0 ((ga.c_size + 1) / 2) with
    | best :: _, some children =>
      some { ga with
             population :=
               rand.shufflePop (elitism_selection (evalPop oracle ga.population) ga.p_size)
                 ++ rand.shuffleChildren children
             best_individual := some best
             avg_score := avgScore (evalPop oracle ga.population) }
    | _, _ => none

/-- The gene vectors `GA.save_all` writes to slots `genes/all/0 ..`:
it re-evaluates everyone, selects `population = self.elitism_selection(p_size)`,
but the write loop reads `self.population[i].genes` — the i-th individual of
the full, unsorted population — for `i in range(len(population))`. -/
def save_all_slots (oracle : Oracle) (p_size : ℕ) (population : List Individual) :
    List (List ℚ) :=
  ((evalPop oracle population).take
      (elitism_selection (evalPop oracle population) p_size).length).map
    fun ind => ind.genes

/-! ### Helper lemmas -/

lemma cumFitness_zero (population : List Individual) : cumFitness population 0 = 0 := rfl

lemma cumFitness_cons (a : Individual) (l : List Individual) (n : ℕ) :
    cumFitness (a :: l) (n + 1) = a.fitness + cumFitness l n := by
  simp [cumFitness]

lemma wheel_cons (a : Individual) (l : List Individual) :
    wheel (a :: l) = a.fitness + wheel l := by
  simp [wheel]

lemma fitnessFormula_pos (score steps : ℕ) (h : 1 ≤ steps) :
    0 < fitnessFormula score steps := by
  have hs : (0 : ℚ) ≤ (score : ℚ) := Nat.cast_nonneg score
  have ht : (0 : ℚ) < (steps : ℚ) := by exact_mod_cast h
  have hinv : (0 : ℚ) < 1 / (steps : ℚ) := by positivity
  have : (0 : ℚ) < (score : ℚ) + 1 / (steps : ℚ) := by linarith
  unfold fitnessFormula
  positivity

lemma rouletteDraw_mem (population : List Individual) (pick : ℚ) :
    ∀ current x, rouletteDraw population pick current = some x → x ∈ population := by
  induction population with
  | nil => intro current x h; simp [rouletteDraw] at h
  | cons ind rest ih =>
    intro current x h
    rw [rouletteDraw] at h
    by_cases hc : current + ind.fitness > pick
    · rw [if_pos hc] at h
      exact (Option.some.inj h) ▸ List.mem_cons_self ind rest
    · rw [if_neg hc] at h
      exact List.mem_cons_of_mem ind (ih _ x h)

/-- The inner loop of the roulette wheel, started at accumulator `current`,
lands on the first individual whose cumulative fitness pushes the running
sum strictly past `pick`, provided the total does. -/
lemma rouletteDraw_first (population : List Individual) (pick : ℚ) :
    ∀ current, pick < current + wheel population → population ≠ [] →
      ∃ i, ∃ hi : i < population.length,
        rouletteDraw population pick current = some (population.get ⟨i, hi⟩) ∧
        pick < current + cumFitness population (i + 1) ∧
        ∀ j < i, current + cumFitness population (j + 1) ≤ pick := by
  induction population with
  | nil => intro current _ hne; exact absurd rfl hne
  | cons ind rest ih =>
    intro current hw _
    rw [rouletteDraw]
    by_cases hc : current + ind.fitness > pick
    · refine ⟨0, by simp, ?_, ?_, ?_⟩
      · rw [if_pos hc]; rfl
      · rw [cumFitness_cons, cumFitness_zero, add_zero]; exact hc
      · intro j hj; omega
    · rw [if_neg hc]
      push_neg at hc
      rw [wheel_cons] at hw
      match rest, ih with
      | [], _ =>
        exfalso
        rw [wheel] at hw
        simp at hw
        linarith
      | r :: rs, ih =>
        obtain ⟨i, hi, heq, hcum, hmin⟩ :=
          ih (current + ind.fitness) (by linarith [hw]) (by simp)
        refine ⟨i + 1, by simpa using Nat.succ_lt_succ hi, ?_, ?_, ?_⟩
        · simpa using heq
        · rw [cumFitness_cons]; linarith [hcum]
        · intro j hj
          match j with
          | 0 =>
            rw [cumFitness_cons, cumFitness_zero, add_zero]
            exact hc
          | Nat.succ j' =>
            rw [cumFitness_cons]
            have := hmin j' (by omega)
            linarith [this]

lemma length_filterMap_all_some {α β : Type} (f : α → Option β) (l : List α)
    (h : ∀ a ∈ l, (f a).isSome) : (l.filterMap f).length = l.length := by
  induction l with
  | nil => rfl
  | cons a l ih =>
    obtain ⟨b, hb⟩ := Option.isSome_iff_exists.mp (h a (List.mem_cons_self a l))
    simp [List.filterMap_cons, hb, ih fun x hx => h x (List.mem_cons_of_mem a hx)]

lemma elitism_length (population : List Individual) (size : ℕ)
    (h : size ≤ population.length) :
    (elitism_selection population size).length = size := by
  rw [elitism_selection, List.length_take,
    (List.perm_insertionSort fitGE population).length_eq]
  omega

lemma elitism_sorted (population : List Individual) (size : ℕ) :
    List.Sorted fitGE (elitism_selection population size) :=
  (List.sorted_insertionSort fitGE population).sublist (List.take_sublist _ _)

lemma elitism_subset (population : List Individual) (size : ℕ) :
    ∀ x ∈ elitism_selection population size, x ∈ population := by
  intro x hx
  exact (List.perm_insertionSort fitGE population).mem_iff.mp
    ((List.take_sublist _ _).subset hx)

/-- When the elite list starts with `b`, `b` belongs to the population and
no member of the population beats its fitness. -/
lemma elitism_head_max (population : List Individual) (size : ℕ)
    (b : Individual) (t : List Individual)
    (h : elitism_selection population size = b :: t) :
    b ∈ population ∧ ∀ x ∈ population, x.fitness ≤ b.fitness := by
  rcases hs : List.insertionSort fitGE population with _ | ⟨b', t'⟩
  · rw [elitism_selection, hs, List.take_nil] at h
    exact absurd h (List.noConfusion)
  · have hsort := List.sorted_insertionSort fitGE population
    rw [hs] at hsort
    have hperm := List.perm_insertionSort fitGE population
    rw [hs] at hperm
    have hb : b' = b := by
      rw [elitism_selection, hs] at h
      cases size with
      | zero => exact absurd h (by simp)
      | succ n =>
        rw [List.take_succ_cons] at h
        exact (List.cons.inj h).1
    rw [hb] at hsort hperm
    have hrest : ∀ y ∈ t', fitGE b y := (List.pairwise_cons.mp hsort).1
    constructor
    · exact hperm.mem_iff.mp (List.mem_cons_self b t')
    · intro x hx
      rcases List.mem_cons.mp (hperm.mem_iff.mpr hx) with hx | hx
      · exact hx ▸ le_refl _
      · exact hrest x hx

/-! ### Claim theorems -/

/-- C1. The claim says `crossover` swaps the prefixes `g1[0..p]` and
`g2[0..p]`. The code does not: the numpy tuple slice assignment evaluates
both right-hand views first, overwrites `g1`'s prefix with `g2`'s, and the
second assignment then reads `g2`'s old values back out of the view of the
already-overwritten `g1` — so `g2` is left unchanged. At `genes_len = 2`,
`point = 0`, `g1 = [1, 2]`, `g2 = [3, 4]`: the code yields
`g1 = [3, 2]` and `g2 = [3, 4]`, while the claim demands `g2 = [1, 4]`. -/
theorem crossover_claim_fails_swap :
    crossover 0 [(1 : ℚ), 2] [3, 4] = ([3, 2], [3, 4]) ∧
    (crossover 0 [(1 : ℚ), 2] [3, 4]).2 ≠ [1, 4] := by
  exact ⟨rfl, by decide⟩

/-- C5. `get_fitness` on an oracle reply `(score, steps, seed)` with
`steps > 0` stores exactly the three returned values and sets
`fitness = (score + 1 / steps) * 100000`. -/
theorem get_fitness_spec (ind : Individual) (res : ℕ × ℕ × ℕ)
    (_hsteps : 0 < res.2.1) :
    (ind.get_fitness res).score = res.1 ∧
    (ind.get_fitness res).steps = res.2.1 ∧
    (ind.get_fitness res).seed = res.2.2 ∧
    (ind.get_fitness res).fitness = ((res.1 : ℚ) + 1 / (res.2.1 : ℚ)) * 100000 :=
  ⟨rfl, rfl, rfl, rfl⟩

/-- Witness for C5 at `genes = []`, oracle reply `(1, 2, 3)`. -/
theorem get_fitness_spec_witness :
    0 < ((1, 2, 3) : ℕ × ℕ × ℕ).2.1 ∧
    (((Individual.init []).get_fitness (1, 2, 3)).score = (1, 2, 3).1 ∧
     ((Individual.init []).get_fitness (1, 2, 3)).steps = ((1, 2, 3) : ℕ × ℕ × ℕ).2.1 ∧
     ((Individual.init []).get_fitness (1, 2, 3)).seed = ((1, 2, 3) : ℕ × ℕ × ℕ).2.2 ∧
     ((Individual.init []).get_fitness (1, 2, 3)).fitness =
       ((((1, 2, 3) : ℕ × ℕ × ℕ).1 : ℚ) + 1 / ((((1, 2, 3) : ℕ × ℕ × ℕ).2.1) : ℚ)) * 100000) :=
  ⟨by decide, get_fitness_spec (Individual.init []) (1, 2, 3) (by decide)⟩

/-- C6. A strictly higher score always gives strictly higher fitness,
whatever the (positive) step counts: the tie-breaking term
`(1 / steps) * 100000 = fitnessFormula 0 steps` lies in `(0, 100000]`,
so it can never outweigh the `100000` a full score point contributes. -/
theorem fitness_score_dominates (s1 s2 t1 t2 : ℕ)
    (hs : s2 < s1) (ht1 : 1 ≤ t1) (ht2 : 1 ≤ t2) :
    fitnessFormula s2 t2 < fitnessFormula s1 t1 ∧
    (∀ t : ℕ, 1 ≤ t → 0 < fitnessFormula 0 t ∧ fitnessFormula 0 t ≤ 100000) := by
  constructor
  · have hc1 : (0 : ℚ) < (t1 : ℚ) := by exact_mod_cast ht1
    have hc2 : (0 : ℚ) < (t2 : ℚ) := by exact_mod_cast ht2
    have hone : (1 : ℚ) ≤ (t2 : ℚ) := by exact_mod_cast ht2
    have hinv1 : (0 : ℚ) < 1 / (t1 : ℚ) := by positivity
    have hinv2 : 1 / (t2 : ℚ) ≤ 1 := by
      rw [div_le_one hc2]; exact hone
    have hcast : (s2 : ℚ) + 1 ≤ (s1 : ℚ) := by exact_mod_cast hs
    unfold fitnessFormula
    nlinarith [hinv1, hinv2, hcast]
  · intro t ht
    have hct : (0 : ℚ) < (t : ℚ) := by exact_mod_cast ht
    have hone : (1 : ℚ) ≤ (t : ℚ) := by exact_mod_cast ht
    have hinv : (0 : ℚ) < 1 / (t : ℚ) := by positivity
    have hinv1 : 1 / (t : ℚ) ≤ 1 := by
      rw [div_le_one hct]; exact hone
    unfold fitnessFormula
    constructor
    · push_cast
      nlinarith [hinv]
    · push_cast
      nlinarith [hinv1]

/-- Witness for C6 at `s1 = 1 > s2 = 0`, `t1 = t2 = 1`. -/
theorem fitness_score_dominates_witness :
    (0 < 1 ∧ 1 ≤ 1) ∧
    (fitnessFormula 0 1 < fitnessFormula 1 1 ∧
     ∀ t : ℕ, 1 ≤ t → 0 < fitnessFormula 0 t ∧ fitnessFormula 0 t ≤ 100000) :=
  ⟨⟨by decide, by decide⟩, fitness_score_dominates 1 0 1 1 (by decide) (by decide) (by decide)⟩

/-- C7. `elitism_selection(k)` on a population of at least `k` individuals
returns exactly `k` individuals, in descending fitness order (`fitGE` is the
descending comparison), all drawn from the input population. The input list
itself is untouched: in this embedding `elitism_selection` only reads
`population` (the source sorts a fresh list with `sorted`). -/
theorem elitism_selection_spec (population : List Individual) (k : ℕ)
    (hk : k ≤ population.length) :
    (elitism_selection population k).length = k ∧
    List.Sorted fitGE (elitism_selection population k) ∧
    ∀ x ∈ elitism_selection population k, x ∈ population :=
  ⟨elitism_length population k hk, elitism_sorted population k,
    elitism_subset population k⟩

/-- Concrete two-individual population with literal fitness values `2 > 1`,
used by several witnesses. -/
def indFitTwo : Individual :=
  { genes := [5], score := 0, steps := 0, fitness := 2, seed := 0 }

def indFitOne : Individual :=
  { genes := [7], score := 0, steps := 0, fitness := 1, seed := 0 }

def popTwo : List Individual := [indFitTwo, indFitOne]

/-- Witness for C7 at the two-individual population, `k = 1`. -/
theorem elitism_selection_spec_witness :
    1 ≤ popTwo.length ∧
    ((elitism_selection popTwo 1).length = 1 ∧
     List.Sorted fitGE (elitism_selection popTwo 1) ∧
     ∀ x ∈ elitism_selection popTwo 1, x ∈ popTwo) :=
  ⟨by decide, elitism_selection_spec popTwo 1 (by decide)⟩

/-- C3. On a population of all-positive fitness, every pick drawn in
`[0, wheel)` makes the inner loop break at some individual, so
`roulette_wheel_selection` returns exactly one member of the population per
pick — and that member is the first one, in population order, whose
cumulative fitness strictly exceeds the pick. -/
theorem roulette_wheel_selection_spec (population : List Individual)
    (picks : List ℚ) (hne : population ≠ [])
    (_hpos : ∀ ind ∈ population, 0 < ind.fitness)
    (hpicks : ∀ p ∈ picks, 0 ≤ p ∧ p < wheel population) :
    (roulette_wheel_selection population picks).length = picks.length ∧
    (∀ x ∈ roulette_wheel_selection population picks, x ∈ population) ∧
    ∀ p ∈ picks, ∃ i, ∃ hi : i < population.length,
      rouletteDraw population p 0 = some (population.get ⟨i, hi⟩) ∧
      p < cumFitness population (i + 1) ∧
      ∀ j < i, cumFitness population (j + 1) ≤ p := by
  have hdraw : ∀ p ∈ picks, ∃ i, ∃ hi : i < population.length,
      rouletteDraw population p 0 = some (population.get ⟨i, hi⟩) ∧
      p < cumFitness population (i + 1) ∧
      ∀ j < i, cumFitness population (j + 1) ≤ p := by
    intro p hp
    obtain ⟨i, hi, heq, hcum, hmin⟩ :=
      rouletteDraw_first population p 0 (by simpa using (hpicks p hp).2) hne
    refine ⟨i, hi, heq, by simpa using hcum, fun j hj => by simpa using hmin j hj⟩
  refine ⟨?_, ?_, hdraw⟩
  · refine length_filterMap_all_some _ picks fun p hp => ?_
    obtain ⟨i, hi, heq, -, -⟩ := hdraw p hp
    rw [heq]
    rfl
  · intro x hx
    obtain ⟨p, -, heq⟩ := List.mem_filterMap.mp hx
    exact rouletteDraw_mem population p 0 x heq

/-- Witness for C3: singleton population of fitness `1`, one pick `0`. -/
theorem roulette_wheel_selection_spec_witness :
    ([indFitOne] ≠ [] ∧ (∀ ind ∈ [indFitOne], 0 < ind.fitness) ∧
      (∀ p ∈ [(0 : ℚ)], 0 ≤ p ∧ p < wheel [indFitOne])) ∧
    ((roulette_wheel_selection [indFitOne] [0]).length = [(0 : ℚ)].length ∧
     (∀ x ∈ roulette_wheel_selection [indFitOne] [0], x ∈ [indFitOne]) ∧
     ∀ p ∈ [(0 : ℚ)], ∃ i, ∃ hi : i < [indFitOne].length,
       rouletteDraw [indFitOne] p 0 = some ([indFitOne].get ⟨i, hi⟩) ∧
       p < cumFitness [indFitOne] (i + 1) ∧
       ∀ j < i, cumFitness [indFitOne] (j + 1) ≤ p) := by
  have h1 : [indFitOne] ≠ [] := by simp
  have h2 : ∀ ind ∈ [indFitOne], 0 < ind.fitness := by
    intro ind h
    rw [List.mem_singleton] at h
    rw [h]
    exact zero_lt_one
  have h3 : ∀ p ∈ [(0 : ℚ)], 0 ≤ p ∧ p < wheel [indFitOne] := by
    intro p hp
    rw [List.mem_singleton] at hp
    rw [hp, wheel]
    refine ⟨le_refl 0, ?_⟩
    simp [indFitOne]
  exact ⟨⟨h1, h2, h3⟩, roulette_wheel_selection_spec [indFitOne] [0] h1 h2 h3⟩

/-- C10. On a population whose every fitness is `0` (for instance, fresh
`Individual.init`s that were never evaluated) the wheel sums to `0`, every
uniform draw over `[0, 0]` is `0`, the running total never strictly exceeds
the pick, and so every outer iteration appends nothing: the selection is
empty whatever `k ≥ 1` is. -/
theorem roulette_wheel_selection_all_zero (population : List Individual)
    (k : ℕ) (_hne : population ≠ []) (_hk : 1 ≤ k)
    (hfit : ∀ ind ∈ population, ind.fitness = 0) :
    wheel population = 0 ∧
    roulette_wheel_selection population (List.replicate k 0) = [] := by
  have hdraw : ∀ current : ℚ, current ≤ 0 →
      rouletteDraw population 0 current = none := by
    clear _hne _hk
    induction population with
    | nil => intro current _; rfl
    | cons ind rest ih =>
      intro current hc
      have hz : ind.fitness = 0 := hfit ind (List.mem_cons_self ind rest)
      rw [rouletteDraw, hz, add_zero, if_neg (by linarith)]
      exact ih (fun x hx => hfit x (List.mem_cons_of_mem ind hx)) current hc
  constructor
  · rw [wheel]
    exact List.sum_eq_zero fun x hx => by
      obtain ⟨ind, hmem, rfl⟩ := List.mem_map.mp hx
      exact hfit ind hmem
  · rw [roulette_wheel_selection]
    rw [List.filterMap_eq_nil_iff]
    intro p hp
    rw [List.eq_of_mem_replicate hp]
    exact hdraw 0 (le_refl 0)

/-- Witness for C10: one never-evaluated individual, `k = 1`. -/
theorem roulette_wheel_selection_all_zero_witness :
    ([Individual.init [3]] ≠ [] ∧ 1 ≤ 1 ∧
      (∀ ind ∈ [Individual.init [3]], ind.fitness = 0)) ∧
    (wheel [Individual.init [3]] = 0 ∧
     roulette_wheel_selection [Individual.init [3]] (List.replicate 1 0) = []) := by
  have h1 : [Individual.init [3]] ≠ [] := by simp
  have h3 : ∀ ind ∈ [Individual.init [3]], ind.fitness = 0 := by
    intro ind h
    rw [List.mem_singleton] at h
    rw [h]
    rfl
  exact ⟨⟨h1, le_refl 1, h3⟩,
    roulette_wheel_selection_all_zero [Individual.init [3]] 1 h1 (le_refl 1) h3⟩

/-- Oracle for C2's failing input: the first oracle call (individual 0)
returns score 0, the second (individual 1) score 1, both with one step. -/
def oracleTwoSlots : Oracle := fun i _ => if i = 0 then (0, 1, 0) else (1, 1, 0)

def popSlots : List Individual := [Individual.init [10], Individual.init [20]]

/-- `popSlots` after `save_all`'s re-evaluation loop under `oracleTwoSlots`. -/
def indSlotA : Individual :=
  { genes := [10], score := 0, steps := 1, fitness := fitnessFormula 0 1, seed := 0 }

def indSlotB : Individual :=
  { genes := [20], score := 1, steps := 1, fitness := fitnessFormula 1 1, seed := 0 }

/-- C2. The claim says slot `i` receives the genes of the `i`-th
elitism-selected survivor. The code computes
`population = self.elitism_selection(self.p_size)` but then writes
`self.population[i].genes` — indexing the full, unsorted population.
Failing input: `p_size = 1`, two individuals with genes `[10]` (re-evaluated
score 0) and `[20]` (re-evaluated score 1). The sole survivor is the `[20]`
individual, yet slot 0 is written with `[10]`. -/
theorem save_all_claim_fails :
    save_all_slots oracleTwoSlots 1 popSlots = [[(10 : ℚ)]] ∧
    (elitism_selection (evalPop oracleTwoSlots popSlots) 1).map
      (fun ind => ind.genes) = [[(20 : ℚ)]] := by
  have hev : evalPop oracleTwoSlots popSlots = [indSlotA, indSlotB] := rfl
  have hlt : ¬ fitGE indSlotA indSlotB := by
    simp only [fitGE, indSlotA, indSlotB]
    norm_num [fitnessFormula]
  have hsort : List.insertionSort fitGE [indSlotA, indSlotB] = [indSlotB, indSlotA] := by
    simp [List.insertionSort, List.orderedInsert, hlt]
  have hsel : elitism_selection [indSlotA, indSlotB] 1 = [indSlotB] := by
    rw [elitism_selection, hsort]
    rfl
  constructor
  · rw [save_all_slots, hev, hsel]
    rfl
  · rw [hev, hsel]
    rfl

/-! ### `evolve` machinery -/

lemma evalPop_length (oracle : Oracle) (population : List Individual) :
    (evalPop oracle population).length = population.length := by
  simp [evalPop]

lemma evalPop_fitness_pos (oracle : Oracle)
    (hsteps : ∀ i g, 1 ≤ (oracle i g).2.1) (population : List Individual) :
    ∀ x ∈ evalPop oracle population, 0 < x.fitness := by
  intro x hx
  obtain ⟨⟨i, ind⟩, _, rfl⟩ := List.mem_map.mp hx
  exact fitnessFormula_pos _ _ (hsteps i ind.genes)

lemma wheel_nonneg (population : List Individual)
    (hpos : ∀ x ∈ population, 0 < x.fitness) : 0 ≤ wheel population := by
  induction population with
  | nil => exact le_refl 0
  | cons a l ih =>
    rw [wheel_cons]
    have h1 := hpos a (List.mem_cons_self a l)
    have h2 := ih fun x hx => hpos x (List.mem_cons_of_mem a hx)
    linarith

lemma wheel_pos (population : List Individual) (hne : population ≠ [])
    (hpos : ∀ x ∈ population, 0 < x.fitness) : 0 < wheel population := by
  match population, hne with
  | a :: l, _ =>
    rw [wheel_cons]
    have h1 := hpos a (List.mem_cons_self a l)
    have h2 := wheel_nonneg l fun x hx => hpos x (List.mem_cons_of_mem a hx)
    linarith

lemma roulette_two (population : List Individual) (p q : ℚ)
    (hne : population ≠ [])
    (hp : p < wheel population) (hq : q < wheel population) :
    ∃ x y, roulette_wheel_selection population [p, q] = [x, y] ∧
      x ∈ population ∧ y ∈ population := by
  obtain ⟨i, hi, heqp, -, -⟩ :=
    rouletteDraw_first population p 0 (by simpa using hp) hne
  obtain ⟨j, hj, heqq, -, -⟩ :=
    rouletteDraw_first population q 0 (by simpa using hq) hne
  refine ⟨population.get ⟨i, hi⟩, population.get ⟨j, hj⟩, ?_, ?_, ?_⟩
  · rw [roulette_wheel_selection]
    simp [List.filterMap_cons, heqp, heqq]
  · exact List.get_mem population i hi
  · exact List.get_mem population j hj

lemma reproduceStep_some (rand : Rand) (population : List Individual) (i : ℕ)
    (hne : population ≠ [])
    (hpicks : ∀ n, 0 ≤ rand.picks n ∧ rand.picks n < wheel population) :
    ∃ c1 c2, reproduceStep rand population i = some (c1, c2) := by
  obtain ⟨x, y, hsel, -, -⟩ := roulette_two population
    (rand.picks (2 * i)) (rand.picks (2 * i + 1)) hne
    (hpicks (2 * i)).2 (hpicks (2 * i + 1)).2
  refine ⟨Individual.init (mutate (rand.masks (2 * i)) (rand.noises (2 * i))
      (crossover (rand.points i) x.genes y.genes).1),
    Individual.init (mutate (rand.masks (2 * i + 1)) (rand.noises (2 * i + 1))
      (crossover (rand.points i) x.genes y.genes).2), ?_⟩
  rw [reproduceStep, hsel]

lemma reproduceLoop_some (rand : Rand) (population : List Individual)
    (hstep : ∀ i, ∃ c1 c2, reproduceStep rand population i = some (c1, c2)) :
    ∀ k i, ∃ cs, reproduceLoop rand population i k = some cs ∧
      cs.length = 2 * k := by
  intro k
  induction k with
  | zero => exact fun i => ⟨[], rfl, rfl⟩
  | succ k ih =>
    intro i
    obtain ⟨c1, c2, hstep_i⟩ := hstep i
    obtain ⟨cs, hloop, hlen⟩ := ih (i + 1)
    refine ⟨c1 :: c2 :: cs, ?_, by simp [hlen]; omega⟩
    rw [reproduceLoop, hstep_i, hloop]

/-- Under the oracle/randomness hypotheses of one generation, `evolve`
succeeds and its output population is the `p_size` survivors followed by
`2 * ⌈c_size / 2⌉` shuffled children. -/
lemma evolve_total (oracle : Oracle) (rand : Rand) (ga : GA)
    (hp1 : 1 ≤ ga.p_size) (hlen : ga.p_size ≤ ga.population.length)
    (hsteps : ∀ i g, 1 ≤ (oracle i g).2.1)
    (hsh1 : ∀ l : List Individual, (rand.shufflePop l).Perm l)
    (hsh2 : ∀ l : List Individual, (rand.shuffleChildren l).Perm l)
    (hpicks : ∀ n, 0 ≤ rand.picks n ∧ rand.picks n <
      wheel (rand.shufflePop
        (elitism_selection (evalPop oracle ga.population) ga.p_size))) :
    ∃ st', evolve oracle rand ga = some st' ∧
      st'.population.length = ga.p_size + 2 * ((ga.c_size + 1) / 2) ∧
      st'.p_size = ga.p_size ∧ st'.c_size = ga.c_size := by
  have hElen : (evalPop oracle ga.population).length = ga.population.length :=
    evalPop_length oracle ga.population
  have hEne : evalPop oracle ga.population ≠ [] := by
    refine List.length_pos.mp ?_
    rw [hElen]
    omega
  have hsellen :
      (elitism_selection (evalPop oracle ga.population) ga.p_size).length =
        ga.p_size :=
    elitism_length _ _ (by rw [hElen]; exact hlen)
  rcases hsel : elitism_selection (evalPop oracle ga.population) ga.p_size
    with _ | ⟨b, t⟩
  · rw [hsel] at hsellen
    simp at hsellen
    omega
  · rw [hsel] at hpicks hsellen
    have hparperm : (rand.shufflePop (b :: t)).Perm (b :: t) := hsh1 (b :: t)
    have hparne : rand.shufflePop (b :: t) ≠ [] := by
      intro h
      have := hparperm.length_eq
      rw [h] at this
      simp at this
    have hparlen : (rand.shufflePop (b :: t)).length = ga.p_size := by
      rw [hparperm.length_eq]
      exact hsellen
    have hparpos : ∀ x ∈ rand.shufflePop (b :: t), 0 < x.fitness := by
      intro x hx
      refine evalPop_fitness_pos oracle hsteps ga.population x ?_
      refine elitism_subset (evalPop oracle ga.population) ga.p_size x ?_
      rw [hsel]
      exact hparperm.mem_iff.mp hx
    have hstep : ∀ i, ∃ c1 c2,
        reproduceStep rand (rand.shufflePop (b :: t)) i = some (c1, c2) :=
      fun i => reproduceStep_some rand _ i hparne hpicks
    obtain ⟨cs, hloop, hcslen⟩ :=
      reproduceLoop_some rand _ hstep ((ga.c_size + 1) / 2) 0
    refine ⟨{ ga with
              population := rand.shufflePop (b :: t) ++ rand.shuffleChildren cs
              best_individual := some b
              avg_score := avgScore (evalPop oracle ga.population) },
      ?_, ?_, rfl, rfl⟩
    · unfold evolve
      rw [if_neg hEne, hsel, hloop]
    · simp only [List.length_append, hparlen, (hsh2 cs).length_eq, hcslen]

/-- C4 (amended). With `c_size` even, at least `p_size ≥ 1` individuals,
strictly positive oracle fitnesses, permuting shuffles and in-range picks,
`evolve` succeeds and leaves a population of exactly `p_size + c_size`
individuals. That size persists until the *next* `evolve` call: its
evaluation phase re-evaluates all `p_size + c_size` individuals, and only
then does its selection phase cut the population back to `p_size` — which
the final conjunct states for every oracle the next generation may use. -/
theorem evolve_size_amended (oracle : Oracle) (rand : Rand) (ga : GA)
    (heven : ga.c_size % 2 = 0)
    (hp1 : 1 ≤ ga.p_size) (hlen : ga.p_size ≤ ga.population.length)
    (hsteps : ∀ i g, 1 ≤ (oracle i g).2.1)
    (hsh1 : ∀ l : List Individual, (rand.shufflePop l).Perm l)
    (hsh2 : ∀ l : List Individual, (rand.shuffleChildren l).Perm l)
    (hpicks : ∀ n, 0 ≤ rand.picks n ∧ rand.picks n <
      wheel (rand.shufflePop
        (elitism_selection (evalPop oracle ga.population) ga.p_size))) :
    ∃ st', evolve oracle rand ga = some st' ∧
      st'.population.length = ga.p_size + ga.c_size ∧
      ∀ oracle2 : Oracle,
        (elitism_selection (evalPop oracle2 st'.population) ga.p_size).length =
          ga.p_size := by
  obtain ⟨st', heq, hlen', -, -⟩ :=
    evolve_total oracle rand ga hp1 hlen hsteps hsh1 hsh2 hpicks
  have h2 : 2 * ((ga.c_size + 1) / 2) = ga.c_size := by omega
  rw [h2] at hlen'
  refine ⟨st', heq, hlen', fun oracle2 => ?_⟩
  refine elitism_length _ _ ?_
  rw [evalPop_length, hlen']
  omega

/-- Oracle for the concrete `evolve` runs: every episode scores 1 in 1 step. -/
def oracleOne : Oracle := fun _ _ => (1, 1, 0)

/-- Identity shuffles, all picks 0, crossover point 0, no mutation. -/
def randId : Rand :=
  { shufflePop := id
    shuffleChildren := id
    picks := fun _ => 0
    points := fun _ => 0
    masks := fun _ => [false]
    noises := fun _ => [0] }

def gaSmall : GA :=
  { p_size := 1
    c_size := 2
    genes_len := 1
    mutate_rate := 0
    population := [Individual.init [0]]
    best_individual := none
    avg_score := 0 }

lemma gaSmall_steps : ∀ i g, 1 ≤ (oracleOne i g).2.1 := fun _ _ => le_refl 1

lemma gaSmall_picks : ∀ n, 0 ≤ randId.picks n ∧ randId.picks n <
    wheel (randId.shufflePop
      (elitism_selection (evalPop oracleOne gaSmall.population) gaSmall.p_size)) := by
  intro n
  refine ⟨le_refl 0, ?_⟩
  show (0 : ℚ) < fitnessFormula 1 1 + 0
  have := fitnessFormula_pos 1 1 (le_refl 1)
  linarith

/-- C4 counterexample. The claim also asserts that the population is back to
`p_size` *before* the next `evolve()`'s evaluation step. It is not: nothing
shrinks the population between two `evolve` calls, so the next evaluation
step receives all `p_size + c_size` individuals (that is precisely how the
children get their fitness). Concretely, with `p_size = 1`, `c_size = 2`,
the post-`evolve` population — the population as the next evaluation step
finds it — has 3 individuals, not `p_size = 1`. -/
theorem evolve_size_claim_counterexample :
    ∃ st', evolve oracleOne randId gaSmall = some st' ∧
      st'.population.length = gaSmall.p_size + gaSmall.c_size ∧
      st'.population.length ≠ gaSmall.p_size := by
  obtain ⟨st', heq, hlen, -, -⟩ := evolve_total oracleOne randId gaSmall
    (le_refl 1) (le_refl 1) gaSmall_steps
    (fun l => List.Perm.refl l) (fun l => List.Perm.refl l) gaSmall_picks
  refine ⟨st', heq, ?_, ?_⟩
  · rw [hlen]
    rfl
  · rw [hlen]
    decide

/-- Witness for C4's amended theorem at the concrete one-individual run. -/
theorem evolve_size_amended_witness :
    (gaSmall.c_size % 2 = 0 ∧ 1 ≤ gaSmall.p_size ∧
      gaSmall.p_size ≤ gaSmall.population.length) ∧
    (∃ st', evolve oracleOne randId gaSmall = some st' ∧
      st'.population.length = gaSmall.p_size + gaSmall.c_size ∧
      ∀ oracle2 : Oracle,
        (elitism_selection (evalPop oracle2 st'.population) gaSmall.p_size).length =
          gaSmall.p_size) :=
  ⟨⟨by decide, le_refl 1, le_refl 1⟩,
    evolve_size_amended oracleOne randId gaSmall (by decide) (le_refl 1)
      (le_refl 1) gaSmall_steps (fun l => List.Perm.refl l)
      (fun l => List.Perm.refl l) gaSmall_picks⟩

/-- C8. Whenever `evolve` completes, `best_individual` is set to the head of
the elitism-sorted just-evaluated population: it is one of the evaluated
individuals and no evaluated individual of that generation has strictly
greater fitness. -/
theorem evolve_best_spec (oracle : Oracle) (rand : Rand) (ga : GA) (st' : GA)
    (_hne : ga.population ≠ []) (_hp : ga.p_size ≤ ga.population.length)
    (heq : evolve oracle rand ga = some st') :
    ∃ b, st'.best_individual = some b ∧
      b ∈ evalPop oracle ga.population ∧
      ∀ x ∈ evalPop oracle ga.population, x.fitness ≤ b.fitness := by
  unfold evolve at heq
  by_cases hE : evalPop oracle ga.population = []
  · rw [if_pos hE] at heq
    exact absurd heq (by simp)
  · rw [if_neg hE] at heq
    split at heq
    case _ best tail children hsel hrep =>
      obtain ⟨hmem, hmax⟩ :=
        elitism_head_max (evalPop oracle ga.population) ga.p_size best tail hsel
      refine ⟨best, ?_, hmem, hmax⟩
      rw [← Option.some.inj heq]
    case _ => exact absurd heq (by simp)

/-- Witness for C8 at the concrete one-individual run. -/
theorem evolve_best_spec_witness :
    ∃ st' b, evolve oracleOne randId gaSmall = some st' ∧
      st'.best_individual = some b ∧
      b ∈ evalPop oracleOne gaSmall.population ∧
      ∀ x ∈ evalPop oracleOne gaSmall.population, x.fitness ≤ b.fitness := by
  obtain ⟨st', heq, -, -, -⟩ := evolve_total oracleOne randId gaSmall
    (le_refl 1) (le_refl 1) gaSmall_steps
    (fun l => List.Perm.refl l) (fun l => List.Perm.refl l) gaSmall_picks
  obtain ⟨b, h1, h2, h3⟩ := evolve_best_spec oracleOne randId gaSmall st'
    (by simp [gaSmall]) (le_refl 1) heq
  exact ⟨st', b, heq, h1, h2, h3⟩

/-- C9. Reproduction never touches a parent: `evolve` copies the selected
parents' genes before crossover and mutation (modelled by `crossover` and
`mutate` returning fresh lists), so the population `evolve` leaves behind is
exactly the selected-and-shuffled parents — the very `Individual` values
produced by selection, genes included — followed by the children. -/
theorem evolve_parents_preserved (oracle : Oracle) (rand : Rand) (ga : GA)
    (st' : GA)
    (hsh : ∀ l : List Individual, (rand.shufflePop l).Perm l)
    (heq : evolve oracle rand ga = some st') :
    ∃ children',
      st'.population =
        rand.shufflePop
          (elitism_selection (evalPop oracle ga.population) ga.p_size)
          ++ children' ∧
      ∀ p ∈ rand.shufflePop
          (elitism_selection (evalPop oracle ga.population) ga.p_size),
        p ∈ elitism_selection (evalPop oracle ga.population) ga.p_size := by
  unfold evolve at heq
  by_cases hE : evalPop oracle ga.population = []
  · rw [if_pos hE] at heq
    exact absurd heq (by simp)
  · rw [if_neg hE] at heq
    split at heq
    case _ best tail children hsel hrep =>
      refine ⟨rand.shuffleChildren children, ?_, ?_⟩
      · rw [← Option.some.inj heq]
      · intro p hp
        exact (hsh _).mem_iff.mp hp
    case _ => exact absurd heq (by simp)

/-- Witness for C9 at the concrete one-individual run. -/
theorem evolve_parents_preserved_witness :
    ∃ st' children', evolve oracleOne randId gaSmall = some st' ∧
      st'.population =
        randId.shufflePop
          (elitism_selection (evalPop oracleOne gaSmall.population) gaSmall.p_size)
          ++ children' ∧
      ∀ p ∈ randId.shufflePop
          (elitism_selection (evalPop oracleOne gaSmall.population) gaSmall.p_size),
        p ∈ elitism_selection (evalPop oracleOne gaSmall.population) gaSmall.p_size := by
  obtain ⟨st', heq, -, -, -⟩ := evolve_total oracleOne randId gaSmall
    (le_refl 1) (le_refl 1) gaSmall_steps
    (fun l => List.Perm.refl l) (fun l => List.Perm.refl l) gaSmall_picks
  obtain ⟨children', h1, h2⟩ := evolve_parents_preserved oracleOne randId gaSmall
    st' (fun l => List.Perm.refl l) heq
  exact ⟨st', children', heq, h1, h2⟩

end SnakeGA
